import Mathlib

/-!
Shallow embedding of the chess rules-and-search engine found in
`rust-engine/src/chess/pieces.rs` and `rust-engine/src/chess/engine.rs`.

Modelling conventions:
* the 8×8 board of `i8` cells becomes `Board := Fin 8 × Fin 8 → Int`
  (the signed magnitude piece encoding is kept verbatim);
* in-place mutation of the board becomes explicit state passing: functions
  that mutate the Rust board return the new board;
* `u8` castling rights become `Nat` with the same bitwise operations
  (`&&&`, masks); the complement `!m` of an 8-bit mask is written
  `255 ^^^ m`;
* the `i32` search depth becomes `Nat` (the engine is only defined for
  nonnegative depth: a nonpositive Rust depth never reaches the
  `depth == 0` base case and diverges);
* the thread-local random source used only by `get_best_move`'s final
  tie-breaking `choose` becomes an explicit `seed : Nat` parameter, with
  uniform choice modelled as indexing by `seed % length`;
* Rust's stable `sort_by` with comparator `score(b).cmp(&score(a))`
  becomes `List.mergeSort` with the corresponding boolean relation
  (both are stable sorts for the same total preorder, hence agree).
-/

namespace Chess

/-- Cell values, verbatim from `pieces.rs`. -/
def E : Int := 0

def WP : Int := 1
def WN : Int := 2
def WB : Int := 3
def WR : Int := 4
def WQ : Int := 5
def WK : Int := 6

def BP : Int := -1
def BN : Int := -2
def BB : Int := -3
def BR : Int := -4
def BQ : Int := -5
def BK : Int := -6

inductive Color where
  | White
  | Black
deriving DecidableEq

open Color

/-- `get_piece_color` from `pieces.rs`: positive cells are White,
everything else (including empty) is Black. -/
def get_piece_color (piece : Int) : Color :=
  if piece > 0 then White else Black

/-- `get_piece_value` from `pieces.rs`. -/
def get_piece_value (piece : Int) : Int :=
  if piece = WP then 1
  else if piece = WN then 3
  else if piece = WB then 3
  else if piece = WR then 5
  else if piece = WQ then 9
  else if piece = WK then 200
  else if piece = BP then -1
  else if piece = BN then -3
  else if piece = BB then -3
  else if piece = BR then -5
  else if piece = BQ then -9
  else if piece = BK then -200
  else 0

abbrev Pos := Fin 8 × Fin 8

abbrev Move := Pos × Pos

abbrev Board := Pos → Int

/-- `is_on_board` from `pieces.rs`. -/
def is_on_board (r f : Int) : Bool :=
  0 ≤ r && r < 8 && 0 ≤ f && f < 8

/-- Convert in-bounds integer coordinates to a `Pos`. -/
def mkPos (r f : Int) (h : is_on_board r f = true) : Pos :=
  (⟨r.toNat, by simp [is_on_board] at h; omega⟩,
   ⟨f.toNat, by simp [is_on_board] at h; omega⟩)

/-- Shared body of the knight/king offset loops in `pieces.rs`:
keep an offset target if it is on the board and is empty or holds an
opposite-colored piece. -/
def offset_dests (board : Board) (color : Color) (position : Pos)
    (offs : List (Int × Int)) : List Pos :=
  offs.filterMap fun d =>
    let r : Int := (position.1 : Int) + d.1
    let f : Int := (position.2 : Int) + d.2
    if h : is_on_board r f then
      let q := mkPos r f h
      let piece := board q
      if piece = E then some q
      else if get_piece_color piece ≠ color then some q
      else none
    else none

/-- `get_knight_legals` from `pieces.rs`. -/
def get_knight_legals (board : Board) (color : Color) (position : Pos) :
    List Pos :=
  offset_dests board color position
    [(-2, -1), (-2, 1), (-1, -2), (-1, 2), (1, -2), (1, 2), (2, -1), (2, 1)]

/-- `get_king_legals` from `pieces.rs` (same accept rule as the knight:
empty square or opposite color). -/
def get_king_legals (board : Board) (color : Color) (position : Pos) :
    List Pos :=
  offset_dests board color position
    [(-1, -1), (-1, 0), (-1, 1), (0, -1), (0, 1), (1, -1), (1, 0), (1, 1)]

/-- `get_pawn_legals` from `pieces.rs`: single push onto an empty square,
double push from the starting rank through empty squares, and diagonal
captures onto opponent-occupied squares. -/
def get_pawn_legals (board : Board) (color : Color) (position : Pos) :
    List Pos :=
  let r : Int := (position.1 : Int)
  let f : Int := (position.2 : Int)
  let direction : Int := match color with | White => -1 | Black => 1
  let forward : List Pos :=
    if h : is_on_board (r + direction) f then
      if board (mkPos (r + direction) f h) = E then
        let startRank : Nat := match color with | White => 6 | Black => 1
        let double : List Pos :=
          if position.1.val = startRank then
            if h2 : is_on_board (r + 2 * direction) f then
              if board (mkPos (r + 2 * direction) f h2) = E then
                [mkPos (r + 2 * direction) f h2]
              else []
            else []
          else []
        mkPos (r + direction) f h :: double
      else []
    else []
  let captures : List Pos :=
    [(-1 : Int), 1].filterMap fun offset =>
      if h : is_on_board (r + direction) (f + offset) then
        let target := board (mkPos (r + direction) (f + offset) h)
        if target ≠ E ∧ get_piece_color target ≠ color then
          some (mkPos (r + direction) (f + offset) h)
        else none
      else none
  forward ++ captures

/-- One ray of `get_sliding_legals` from `pieces.rs`: walk in direction
`(dr, df)` until leaving the board or hitting a piece; an opposing
blocking piece is included as a capture.  The `while` loop is modelled
with fuel `8`, which exceeds the number of on-board steps any ray can
take. -/
def slide (board : Board) (color : Color) (dr df : Int) :
    Nat → Int → Int → List Pos
  | 0, _, _ => []
  | fuel + 1, r, f =>
    if h : is_on_board r f then
      let q := mkPos r f h
      let piece := board q
      if piece = E then q :: slide board color dr df fuel (r + dr) (f + df)
      else if get_piece_color piece ≠ color then [q]
      else []
    else []

/-- `get_sliding_legals` from `pieces.rs`. -/
def get_sliding_legals (board : Board) (color : Color) (position : Pos)
    (directions : List (Int × Int)) : List Pos :=
  directions.flatMap fun d =>
    slide board color d.1 d.2 8 ((position.1 : Int) + d.1)
      ((position.2 : Int) + d.2)

/-- `get_bishop_legals` from `pieces.rs`. -/
def get_bishop_legals (board : Board) (color : Color) (position : Pos) :
    List Pos :=
  get_sliding_legals board color position [(-1, -1), (-1, 1), (1, -1), (1, 1)]

/-- `get_rook_legals` from `pieces.rs`. -/
def get_rook_legals (board : Board) (color : Color) (position : Pos) :
    List Pos :=
  get_sliding_legals board color position [(-1, 0), (1, 0), (0, -1), (0, 1)]

/-- `get_queen_legals` from `pieces.rs`. -/
def get_queen_legals (board : Board) (color : Color) (position : Pos) :
    List Pos :=
  get_sliding_legals board color position
    [(-1, -1), (-1, 1), (1, -1), (1, 1), (-1, 0), (1, 0), (0, -1), (0, 1)]

/-- Per-square dispatch on `|piece|`; `get_legal_moves` in `pieces.rs`,
imported by `engine.rs` as `get_pseudo_legal_moves_for_piece`. -/
def get_pseudo_legal_moves_for_piece (board : Board) (color : Color)
    (position : Pos) : List Pos :=
  let piece_type := (board position).natAbs
  if piece_type = 2 then get_knight_legals board color position
  else if piece_type = 1 then get_pawn_legals board color position
  else if piece_type = 3 then get_bishop_legals board color position
  else if piece_type = 4 then get_rook_legals board color position
  else if piece_type = 5 then get_queen_legals board color position
  else if piece_type = 6 then get_king_legals board color position
  else []

/-- Rank-major list of all 64 squares, the iteration order of every
`for r in 0..8 { for f in 0..8 { ... } }` loop in the source. -/
def scanList : List Pos :=
  (List.finRange 8).flatMap fun r => (List.finRange 8).map fun f => (r, f)

/-- `get_all_legal_moves` in `pieces.rs`, imported by `engine.rs` as
`get_all_pseudo_legal_moves`: aggregate the per-square generator over
every square occupied by `color`. -/
def get_all_pseudo_legal_moves (board : Board) (color : Color) :
    List Move :=
  scanList.flatMap fun sq =>
    if board sq ≠ E ∧ get_piece_color (board sq) = color then
      (get_pseudo_legal_moves_for_piece board color sq).map fun dest =>
        (sq, dest)
    else []

/-! ## `engine.rs` -/

/-- Castling-rights bit masks, verbatim from `engine.rs`. -/
def CASTLE_WK : Nat := 1

def CASTLE_WQ : Nat := 2

def CASTLE_BK : Nat := 4

def CASTLE_BQ : Nat := 8

def ALL_CASTLE_RIGHTS : Nat := 15

/-- `evaluate_board` from `engine.rs`: sum of signed piece values over
the rank-major double loop. -/
def evaluate_board (board : Board) : Int :=
  scanList.foldl (fun total_point p => total_point + get_piece_value (board p)) 0

/-- `get_opponent` from `engine.rs`. -/
def get_opponent (color : Color) : Color :=
  match color with
  | White => Black
  | Black => White

/-- `score_move` from `engine.rs` (MVV-LVA ordering score). -/
def score_move (board : Board) (move_ : Move) : Int :=
  let move_piece := board move_.1
  let captured_piece := board move_.2
  if captured_piece ≠ E then
    10 * |get_piece_value captured_piece| - |get_piece_value move_piece|
  else 0

/-- The file distance `(from_f as isize - to_f as isize).abs()` used by
the castling tests in `make_move` / `undo_move`. -/
def fileDist (move_ : Move) : Nat :=
  ((move_.1.2 : Int) - (move_.2.2 : Int)).natAbs

/-- `make_move` from `engine.rs`.  The Rust function mutates the board
and returns `(captured, new_rights)`; here the new board is returned as
the first component.  Rook relocation for a castle and the three
rights-clearing rules are kept verbatim (an 8-bit complement `!m`
becomes `255 ^^^ m`). -/
def make_move (board : Board) (move_ : Move) (current_rights : Nat) :
    Board × Int × Nat :=
  let frm := move_.1
  let dst := move_.2
  let piece := board frm
  let captured := board dst
  let b1 : Board := Function.update (Function.update board dst piece) frm E
  let is_castling := (piece = WK ∨ piece = BK) ∧ fileDist move_ = 2
  let b2 : Board :=
    if is_castling then
      if dst.2 = 6 then
        let rook := b1 (frm.1, 7)
        Function.update (Function.update b1 (frm.1, 5) rook) (frm.1, 7) E
      else if dst.2 = 2 then
        let rook := b1 (frm.1, 0)
        Function.update (Function.update b1 (frm.1, 3) rook) (frm.1, 0) E
      else b1
    else b1
  let r1 :=
    if piece = WK then current_rights &&& (255 ^^^ (CASTLE_WK ||| CASTLE_WQ))
    else if piece = BK then
      current_rights &&& (255 ^^^ (CASTLE_BK ||| CASTLE_BQ))
    else current_rights
  let r2 :=
    if piece = WR then
      if frm.1 = 7 ∧ frm.2 = 0 then r1 &&& (255 ^^^ CASTLE_WQ)
      else if frm.1 = 7 ∧ frm.2 = 7 then r1 &&& (255 ^^^ CASTLE_WK)
      else r1
    else r1
  let r3 :=
    if piece = BR then
      if frm.1 = 0 ∧ frm.2 = 0 then r2 &&& (255 ^^^ CASTLE_BQ)
      else if frm.1 = 0 ∧ frm.2 = 7 then r2 &&& (255 ^^^ CASTLE_BK)
      else r2
    else r2
  let r4 :=
    if captured = WR then
      if dst.1 = 7 ∧ dst.2 = 0 then r3 &&& (255 ^^^ CASTLE_WQ)
      else if dst.1 = 7 ∧ dst.2 = 7 then r3 &&& (255 ^^^ CASTLE_WK)
      else r3
    else if captured = BR then
      if dst.1 = 0 ∧ dst.2 = 0 then r3 &&& (255 ^^^ CASTLE_BQ)
      else if dst.1 = 0 ∧ dst.2 = 7 then r3 &&& (255 ^^^ CASTLE_BK)
      else r3
    else r3
  (b2, captured, r4)

/-- `undo_move` from `engine.rs`: the piece now on the destination square
is moved back, the captured piece restored, and a castle (recognized by
"king displaced two files") has its rook relocation reversed. -/
def undo_move (board : Board) (move_ : Move) (captured : Int) : Board :=
  let frm := move_.1
  let dst := move_.2
  let piece := board dst
  let is_castling := (piece = WK ∨ piece = BK) ∧ fileDist move_ = 2
  let b1 : Board := Function.update (Function.update board frm piece) dst captured
  if is_castling then
    if dst.2 = 6 then
      let rook := b1 (frm.1, 5)
      Function.update (Function.update b1 (frm.1, 7) rook) (frm.1, 5) E
    else if dst.2 = 2 then
      let rook := b1 (frm.1, 3)
      Function.update (Function.update b1 (frm.1, 0) rook) (frm.1, 3) E
    else b1
  else b1

/-- `is_square_attacked` from `engine.rs`: some cell holds an
`attacker_color` piece whose pseudo-legal destinations contain
`position`. -/
def is_square_attacked (board : Board) (position : Pos)
    (attacker_color : Color) : Bool :=
  scanList.any fun sq =>
    let piece := board sq
    if piece = E then false
    else
      let piece_color := if piece > 0 then White else Black
      if piece_color = attacker_color then
        decide
          (position ∈ get_pseudo_legal_moves_for_piece board attacker_color sq)
      else false

/-- The king value searched for by `is_in_check`. -/
def kingVal (color : Color) : Int :=
  match color with
  | White => WK
  | Black => BK

/-- `is_in_check` from `engine.rs`: find the first square (rank-major
scan with early exit) holding `color`'s king; no king at all counts as
"in check". -/
def is_in_check (board : Board) (color : Color) : Bool :=
  match scanList.find? (fun p => board p = kingVal color) with
  | some pos => is_square_attacked board pos (get_opponent color)
  | none => true

/-- The `for move_ in pseudo_moves { make / test / undo }` loop of
`get_legal_moves`, with the mutable `board_clone` threaded explicitly.
Returns the kept moves together with the final state of the clone. -/
def legalFilterLoop (color : Color) (castling_rights : Nat) :
    List Move → Board → List Move × Board
  | [], bc => ([], bc)
  | move_ :: rest, bc =>
    let step := make_move bc move_ castling_rights
    let keep := ¬ is_in_check step.1 color
    let bc2 := undo_move step.1 move_ step.2.1
    let tail := legalFilterLoop color castling_rights rest bc2
    ((if keep then move_ :: tail.1 else tail.1), tail.2)

/-- The castling synthesis block of `get_legal_moves` (the body of
`if !is_in_check(board, color) { ... }`). -/
def castleMoves (board : Board) (color : Color) (castling_rights : Nat) :
    List Move :=
  if is_in_check board color then []
  else
    let rank : Fin 8 := match color with | White => 7 | Black => 0
    let king_mask := match color with | White => CASTLE_WK | Black => CASTLE_BK
    let queen_mask := match color with | White => CASTLE_WQ | Black => CASTLE_BQ
    let king_piece := if color = White then WK else BK
    if board (rank, 4) = king_piece then
      (if castling_rights &&& king_mask ≠ 0 ∧
          board (rank, 5) = E ∧ board (rank, 6) = E ∧
          ¬ is_square_attacked board (rank, 5) (get_opponent color) ∧
          ¬ is_square_attacked board (rank, 6) (get_opponent color) then
        [((rank, 4), (rank, 6))]
      else []) ++
      (if castling_rights &&& queen_mask ≠ 0 ∧
          board (rank, 1) = E ∧ board (rank, 2) = E ∧ board (rank, 3) = E ∧
          ¬ is_square_attacked board (rank, 3) (get_opponent color) ∧
          ¬ is_square_attacked board (rank, 2) (get_opponent color) then
        [((rank, 4), (rank, 2))]
      else [])
    else []

/-- `get_legal_moves` from `engine.rs`: screen every pseudo-legal move
against a scratch copy, then append the synthesized castling moves. -/
def get_legal_moves (board : Board) (color : Color) (castling_rights : Nat) :
    List Move :=
  let pseudo_moves := get_all_pseudo_legal_moves board color
  (legalFilterLoop color castling_rights pseudo_moves board).1 ++
    castleMoves board color castling_rights

/-- The `legal_moves.sort_by(score_b.cmp(&score_a))` call shared by
`minimax` and `get_best_move`: a stable sort, descending by
`score_move`.  Rust's stable `sort_by` and `List.mergeSort` agree for
the same total preorder. -/
def sortMoves (board : Board) (moves : List Move) : List Move :=
  moves.mergeSort fun a b => score_move board b ≤ score_move board a

/-- `is_maximizing` from `engine.rs`. -/
def is_maximizing (color : Color) : Bool :=
  color = White

/-- `i32::MIN`, the initial best point of a maximizing node. -/
def intMin : Int := -2147483648

/-- `i32::MAX`, the initial best point of a minimizing node. -/
def intMax : Int := 2147483647

/-- The `for move_ in legal_moves { ... }` loop of `minimax`, with the
mutable board, `alpha`, `beta` and `best_point` threaded explicitly and
the recursive `minimax` call abstracted as `rec` (new board and rights
in, point and final board out).  The `break` of an alpha-beta cutoff
returns early. -/
def mmLoop (maximizing : Bool) (use_pruning : Bool) (castling_rights : Nat)
    (rec : Board → Nat → Int → Int → Int × Board) :
    List Move → Board → Int → Int → Int → Int × Board
  | [], b, _, _, best_point => (best_point, b)
  | move_ :: rest, b, alpha, beta, best_point =>
    let step := make_move b move_ castling_rights
    let res := rec step.1 step.2.2 alpha beta
    let point := res.1
    let b2 := undo_move res.2 move_ step.2.1
    if maximizing then
      let best' := max best_point point
      let alpha' := max alpha point
      if use_pruning ∧ beta ≤ alpha' then (best', b2)
      else mmLoop maximizing use_pruning castling_rights rec rest b2 alpha' beta best'
    else
      let best' := min best_point point
      let beta' := min beta point
      if use_pruning ∧ beta' ≤ alpha then (best', b2)
      else mmLoop maximizing use_pruning castling_rights rec rest b2 alpha beta' best'

/-- `minimax` from `engine.rs`, with the mutated board returned as the
second component.  `depth` is a natural number; the Rust `i32` depth is
meaningful only when nonnegative (a negative depth never terminates). -/
def minimax (board : Board) (color : Color) (depth : Nat)
    (alpha beta : Int) (castling_rights : Nat)
    (use_pruning use_move_ordering : Bool) : Int × Board :=
  match depth with
  | 0 => (evaluate_board board, board)
  | d + 1 =>
    let legal_moves := get_legal_moves board color castling_rights
    let legal_moves :=
      if use_move_ordering then sortMoves board legal_moves else legal_moves
    if legal_moves.isEmpty then
      if is_in_check board color then
        if color = White then (-10000 - ((d : Int) + 1), board)
        else (10000 + ((d : Int) + 1), board)
      else (0, board)
    else
      let maximizing := is_maximizing color
      mmLoop maximizing use_pruning castling_rights
        (fun b r a bt =>
          minimax b (get_opponent color) d a bt r use_pruning use_move_ordering)
        legal_moves board alpha beta (if maximizing then intMin else intMax)

/-- The root loop of `get_best_move`: for each root move, apply it,
search the child with the fixed window `(-50000, 50000)`, record
`(point, move)`, undo.  The mutable `board_clone` is threaded
explicitly. -/
def rootLoop (color : Color) (depth : Nat) (castling_rights : Nat)
    (use_pruning use_move_ordering : Bool) :
    List Move → Board → List (Int × Move) × Board
  | [], bc => ([], bc)
  | move_ :: rest, bc =>
    let step := make_move bc move_ castling_rights
    let res := minimax step.1 (get_opponent color) depth (-50000) 50000
      step.2.2 use_pruning use_move_ordering
    let bc2 := undo_move res.2 move_ step.2.1
    let tail := rootLoop color depth castling_rights use_pruning
      use_move_ordering rest bc2
    ((res.1, move_) :: tail.1, tail.2)

/-- `points_w_moves.iter().map(...).max().unwrap()` over a nonempty
list, modelled as a left fold from the head. -/
def listMax : List Int → Int
  | [] => 0
  | x :: xs => xs.foldl max x

/-- `points_w_moves.iter().map(...).min().unwrap()` over a nonempty
list, modelled as a left fold from the head. -/
def listMin : List Int → Int
  | [] => 0
  | x :: xs => xs.foldl min x

/-- The `(point, move)` pairs collected at the root of `get_best_move`
(the contents of `points_w_moves`). -/
def rootPoints (board : Board) (color : Color) (depth : Nat)
    (castling_rights : Nat) (use_pruning use_move_ordering : Bool) :
    List (Int × Move) :=
  let legal_moves := get_legal_moves board color castling_rights
  let legal_moves :=
    if use_move_ordering then sortMoves board legal_moves else legal_moves
  (rootLoop color (depth - 1) castling_rights use_pruning use_move_ordering
    legal_moves board).1

/-- The optimal root score of `get_best_move` (max for White, min for
Black, over the collected root points). -/
def bestRootScore (board : Board) (color : Color) (depth : Nat)
    (castling_rights : Nat) (use_pruning use_move_ordering : Bool) : Int :=
  let pts := rootPoints board color depth castling_rights use_pruning
    use_move_ordering
  if is_maximizing color then listMax (pts.map Prod.fst)
  else listMin (pts.map Prod.fst)

/-- The `best_moves` vector of `get_best_move`: the root moves attaining
the optimal score. -/
def bestTieMoves (board : Board) (color : Color) (depth : Nat)
    (castling_rights : Nat) (use_pruning use_move_ordering : Bool) :
    List Move :=
  let pts := rootPoints board color depth castling_rights use_pruning
    use_move_ordering
  let best_score := bestRootScore board color depth castling_rights
    use_pruning use_move_ordering
  (pts.filter fun pm => pm.1 = best_score).map Prod.snd

/-- `get_best_move` from `engine.rs`.  The depth is a natural number
(the Rust caller always passes a positive depth; at depth `0` the Rust
code would recurse with depth `-1` and diverge, here `depth - 1`
truncates at `0`).  The final `best_moves.choose(&mut rng)` — a
uniformly random element, `None` only on an empty vector — is modelled
by indexing with an explicit random seed. -/
def get_best_move (board : Board) (color : Color) (depth : Nat)
    (castling_rights : Nat) (use_pruning use_move_ordering : Bool)
    (seed : Nat) : Option Move :=
  let legal_moves := get_legal_moves board color castling_rights
  let legal_moves :=
    if use_move_ordering then sortMoves board legal_moves else legal_moves
  if legal_moves.isEmpty then none
  else
    let pts := (rootLoop color (depth - 1) castling_rights use_pruning
      use_move_ordering legal_moves board).1
    if pts.isEmpty then none
    else
      let best_score :=
        if is_maximizing color then listMax (pts.map Prod.fst)
        else listMin (pts.map Prod.fst)
      let best_moves := (pts.filter fun pm => pm.1 = best_score).map Prod.snd
      best_moves.get? (seed % best_moves.length)

/-! ## Concrete boards used as counterexamples and witnesses -/

/-- White king e1, white rook h1, black pawn h2 — the castling
counterexample position. -/
def castleBugBoard : Board := fun p =>
  if p = ((7 : Fin 8), (4 : Fin 8)) then WK
  else if p = ((7 : Fin 8), (7 : Fin 8)) then WR
  else if p = ((6 : Fin 8), (7 : Fin 8)) then BP
  else E

/-- White queen e1, white king a8 — a non-king piece making the move
e1→g1 as an ordinary sliding move. -/
def queenAliasBoard : Board := fun p =>
  if p = ((7 : Fin 8), (4 : Fin 8)) then WQ
  else if p = ((0 : Fin 8), (0 : Fin 8)) then WK
  else E

/-- The empty board. -/
def emptyBoard : Board := fun _ => E

/-- The standard starting position (the initial board of `main.rs`). -/
def startBoard : Board := fun p =>
  match p.1.val, p.2.val with
  | 0, 0 => BR | 0, 1 => BN | 0, 2 => BB | 0, 3 => BQ
  | 0, 4 => BK | 0, 5 => BB | 0, 6 => BN | 0, 7 => BR
  | 1, _ => BP
  | 6, _ => WP
  | 7, 0 => WR | 7, 1 => WN | 7, 2 => WB | 7, 3 => WQ
  | 7, 4 => WK | 7, 5 => WB | 7, 6 => WN | 7, 7 => WR
  | _, _ => E

/-- A sparse position: white king a1, black king h8. -/
def kingsOnlyBoard : Board := fun p =>
  if p = ((7 : Fin 8), (0 : Fin 8)) then WK
  else if p = ((0 : Fin 8), (7 : Fin 8)) then BK
  else E

/-! ## Spec-side predicates for the castling claim -/

/-- The back rank of a color (rank 7 for White, rank 0 for Black). -/
def backRank (color : Color) : Fin 8 :=
  match color with | White => 7 | Black => 0

/-- The kingside rights mask of a color. -/
def ksMask (color : Color) : Nat :=
  match color with | White => CASTLE_WK | Black => CASTLE_BK

/-- The queenside rights mask of a color. -/
def qsMask (color : Color) : Nat :=
  match color with | White => CASTLE_WQ | Black => CASTLE_BQ

/-- The claimed kingside-castling condition: not currently in check, king
on its canonical origin square, rights bit set, squares strictly between
king and rook empty, and neither the king's transit square nor its
destination attacked by the opponent. -/
def kingsideAllowed (board : Board) (color : Color) (rights : Nat) : Prop :=
  is_in_check board color = false ∧
  board (backRank color, 4) = kingVal color ∧
  rights &&& ksMask color ≠ 0 ∧
  board (backRank color, 5) = E ∧ board (backRank color, 6) = E ∧
  is_square_attacked board (backRank color, 5) (get_opponent color) = false ∧
  is_square_attacked board (backRank color, 6) (get_opponent color) = false

/-- The claimed queenside-castling condition: as `kingsideAllowed`, with
files 1–3 empty and only the king's transit square (file 3) and
destination (file 2) required unattacked — file 1 is the rook's extra
transit square and is only required empty. -/
def queensideAllowed (board : Board) (color : Color) (rights : Nat) : Prop :=
  is_in_check board color = false ∧
  board (backRank color, 4) = kingVal color ∧
  rights &&& qsMask color ≠ 0 ∧
  board (backRank color, 1) = E ∧ board (backRank color, 2) = E ∧
  board (backRank color, 3) = E ∧
  is_square_attacked board (backRank color, 3) (get_opponent color) = false ∧
  is_square_attacked board (backRank color, 2) (get_opponent color) = false

/-! ## Basic facts about the pseudo-legal generators -/

theorem mkPos_coords (r f : Int) (h : is_on_board r f = true) :
    ((mkPos r f h).1 : Int) = r ∧ ((mkPos r f h).2 : Int) = f := by
  simp only [is_on_board, Bool.and_eq_true, decide_eq_true_eq] at h
  simp only [mkPos]
  omega

theorem mem_offset_dests {board : Board} {color : Color} {position q : Pos}
    {offs : List (Int × Int)} (h : q ∈ offset_dests board color position offs) :
    ∃ d ∈ offs, (q.1 : Int) = (position.1 : Int) + d.1 ∧
      (q.2 : Int) = (position.2 : Int) + d.2 := by
  rcases List.mem_filterMap.mp h with ⟨d, hd, he⟩
  refine ⟨d, hd, ?_⟩
  dsimp only at he
  split at he
  · rename_i hob
    split at he
    · cases he
      exact mkPos_coords _ _ hob
    · split at he
      · cases he
        exact mkPos_coords _ _ hob
      · cases he
  · cases he

theorem offset_dests_ne {board : Board} {color : Color} {position q : Pos}
    {offs : List (Int × Int)} (hoffs : ∀ d ∈ offs, ¬(d.1 = 0 ∧ d.2 = 0))
    (h : q ∈ offset_dests board color position offs) : q ≠ position := by
  rcases mem_offset_dests h with ⟨d, hd, h1, h2⟩
  intro he
  subst he
  exact hoffs d hd ⟨by omega, by omega⟩

theorem get_pawn_legals_rank_ne {board : Board} {color : Color}
    {position q : Pos} (h : q ∈ get_pawn_legals board color position) :
    q.1 ≠ position.1 := by
  have key : (q.1 : Int) ≠ (position.1 : Int) := by
    cases color <;>
    · simp only [get_pawn_legals] at h
      rcases List.mem_append.mp h with h | h
      · split at h
        · rename_i hob
          split at h
          · rcases List.mem_cons.mp h with rfl | h
            · have := mkPos_coords _ _ hob
              omega
            · split at h
              · split at h
                · rename_i hob2
                  split at h
                  · rcases List.mem_singleton.mp h with rfl
                    have := mkPos_coords _ _ hob2
                    omega
                  · cases h
                · cases h
              · cases h
          · cases h
        · cases h
      · rcases List.mem_filterMap.mp h with ⟨off, hoff, he⟩
        dsimp only at he
        split at he
        · rename_i hob
          split at he
          · cases he
            have := mkPos_coords _ _ hob
            omega
          · cases he
        · cases he
  intro he
  exact key (by rw [he])

theorem slide_coords {board : Board} {color : Color} {dr df : Int} :
    ∀ (fuel : Nat) (r f : Int) (q : Pos), q ∈ slide board color dr df fuel r f →
      ∃ k : Nat, (q.1 : Int) = r + k * dr ∧ (q.2 : Int) = f + k * df := by
  intro fuel
  induction fuel with
  | zero => intro r f q h; simp [slide] at h
  | succ n ih =>
    intro r f q h
    rw [slide] at h
    dsimp only at h
    split at h
    · rename_i hob
      split at h
      · rcases List.mem_cons.mp h with rfl | h
        · exact ⟨0, by simpa using mkPos_coords _ _ hob⟩
        · rcases ih _ _ _ h with ⟨k, h1, h2⟩
          refine ⟨k + 1, ?_, ?_⟩ <;> push_cast <;> [rw [h1]; rw [h2]] <;> ring
      · split at h
        · rcases List.mem_singleton.mp h with rfl
          exact ⟨0, by simpa using mkPos_coords _ _ hob⟩
        · cases h
    · cases h

theorem get_sliding_legals_ne {board : Board} {color : Color}
    {position q : Pos} {dirs : List (Int × Int)}
    (hdirs : ∀ d ∈ dirs, ¬(d.1 = 0 ∧ d.2 = 0))
    (h : q ∈ get_sliding_legals board color position dirs) : q ≠ position := by
  rcases List.mem_flatMap.mp h with ⟨d, hd, hs⟩
  rcases slide_coords _ _ _ _ hs with ⟨k, h1, h2⟩
  intro he
  subst he
  have hk1 : ((k : Int) + 1) * d.1 = 0 := by linarith [h1]
  have hk2 : ((k : Int) + 1) * d.2 = 0 := by linarith [h2]
  have hkz : (k : Int) + 1 ≠ 0 := by omega
  exact hdirs d hd ⟨by
    rcases mul_eq_zero.mp hk1 with h' | h'
    · exact absurd h' hkz
    · exact h', by
    rcases mul_eq_zero.mp hk2 with h' | h'
    · exact absurd h' hkz
    · exact h'⟩

theorem pseudo_dest_ne {board : Board} {color : Color} {position q : Pos}
    (h : q ∈ get_pseudo_legal_moves_for_piece board color position) :
    q ≠ position := by
  unfold get_pseudo_legal_moves_for_piece at h
  dsimp only at h
  split at h
  · exact offset_dests_ne (by decide) h
  · split at h
    · exact fun he => get_pawn_legals_rank_ne h (by rw [he])
    · split at h
      · exact get_sliding_legals_ne (by decide) h
      · split at h
        · exact get_sliding_legals_ne (by decide) h
        · split at h
          · exact get_sliding_legals_ne (by decide) h
          · split at h
            · exact offset_dests_ne (by decide) h
            · cases h

theorem pseudo_king_file_dist {board : Board} {color : Color}
    {position q : Pos} (hk : (board position).natAbs = 6)
    (h : q ∈ get_pseudo_legal_moves_for_piece board color position) :
    ((position.2 : Int) - (q.2 : Int)).natAbs ≠ 2 := by
  unfold get_pseudo_legal_moves_for_piece at h
  dsimp only at h
  rw [hk] at h
  norm_num at h
  rcases mem_offset_dests h with ⟨d, hd, h1, h2⟩
  have : d.2 = -1 ∨ d.2 = 0 ∨ d.2 = 1 := by
    simp only [List.mem_cons, List.not_mem_nil, or_false] at hd
    rcases hd with rfl | rfl | rfl | rfl | rfl | rfl | rfl | rfl <;> simp
  omega

theorem mem_scanList (p : Pos) : p ∈ scanList := by
  revert p
  decide

theorem mem_all_pseudo {board : Board} {color : Color} {m : Move} :
    m ∈ get_all_pseudo_legal_moves board color ↔
      board m.1 ≠ E ∧ get_piece_color (board m.1) = color ∧
        m.2 ∈ get_pseudo_legal_moves_for_piece board color m.1 := by
  constructor
  · intro h
    rcases List.mem_flatMap.mp h with ⟨sq, _, hm⟩
    split at hm
    · rename_i hcond
      rcases List.mem_map.mp hm with ⟨dest, hdest, rfl⟩
      exact ⟨hcond.1, hcond.2, hdest⟩
    · cases hm
  · intro ⟨h1, h2, h3⟩
    refine List.mem_flatMap.mpr ⟨m.1, mem_scanList _, ?_⟩
    rw [if_pos ⟨h1, h2⟩]
    exact List.mem_map.mpr ⟨m.2, h3, rfl⟩

/-- A pseudo-legal move never has equal source and destination. -/
theorem pseudo_from_ne_to {board : Board} {color : Color} {m : Move}
    (h : m ∈ get_all_pseudo_legal_moves board color) : m.1 ≠ m.2 := by
  exact fun he => pseudo_dest_ne (mem_all_pseudo.mp h).2.2 he.symm

/-- A pseudo-legal move is never shaped like a castle: it never moves a
king by two files (the predicate tested by `make_move`/`undo_move`). -/
theorem pseudo_not_castle_shape {board : Board} {color : Color} {m : Move}
    (h : m ∈ get_all_pseudo_legal_moves board color) :
    ¬((board m.1 = WK ∨ board m.1 = BK) ∧ fileDist m = 2) := by
  rintro ⟨hking, hdist⟩
  have hk : (board m.1).natAbs = 6 := by
    rcases hking with h' | h' <;> rw [h'] <;> rfl
  exact pseudo_king_file_dist hk (mem_all_pseudo.mp h).2.2 hdist

/-! ## `make_move` / `undo_move` restoration -/

/-- Undo after make restores the board, for any move that is not shaped
like a castle and does not have equal source and destination. -/
theorem undo_make_normal (board : Board) (m : Move) (rights : Nat)
    (hne : m.1 ≠ m.2)
    (hshape : ¬((board m.1 = WK ∨ board m.1 = BK) ∧ fileDist m = 2)) :
    undo_move (make_move board m rights).1 m
      (make_move board m rights).2.1 = board := by
  obtain ⟨frm, dst⟩ := m
  simp only at hne hshape
  simp only [make_move, undo_move]
  rw [if_neg hshape]
  have hread : Function.update (Function.update board dst (board frm)) frm E
      dst = board frm := by
    rw [Function.update_noteq (Ne.symm hne), Function.update_same]
  rw [hread]
  rw [if_neg hshape]
  funext p
  simp only [Function.update_apply]
  split_ifs with h1 h2
  · rw [h1]
  · rw [h2]
  · rfl

/-- Distinct files give distinct squares on a common rank. -/
theorem rank_pair_ne (rk : Fin 8) {a b : Fin 8} (hab : a ≠ b) :
    ((rk, a) : Pos) ≠ (rk, b) :=
  fun h => hab (congrArg Prod.snd h)

/-- Undo after make restores the board for a kingside castle: king on
file 4, destination file 6, files 5 and 6 empty. -/
theorem undo_make_castle_ks (board : Board) (rk : Fin 8) (rights : Nat)
    (hk : board (rk, 4) = WK ∨ board (rk, 4) = BK)
    (h5 : board (rk, 5) = E) (h6 : board (rk, 6) = E) :
    undo_move (make_move board ((rk, 4), (rk, 6)) rights).1 ((rk, 4), (rk, 6))
      (make_move board ((rk, 4), (rk, 6)) rights).2.1 = board := by
  have hdist : fileDist ((rk, 4), (rk, 6)) = 2 := rfl
  have hcond : (board (rk, 4) = WK ∨ board (rk, 4) = BK) ∧
      fileDist ((rk, 4), (rk, 6)) = 2 := ⟨hk, hdist⟩
  have e46 := rank_pair_ne rk (show (6 : Fin 8) ≠ 4 by decide)
  have e47 := rank_pair_ne rk (show (7 : Fin 8) ≠ 4 by decide)
  have e67 := rank_pair_ne rk (show (6 : Fin 8) ≠ 7 by decide)
  have e65 := rank_pair_ne rk (show (6 : Fin 8) ≠ 5 by decide)
  have e57 := rank_pair_ne rk (show (5 : Fin 8) ≠ 7 by decide)
  have e54 := rank_pair_ne rk (show (5 : Fin 8) ≠ 4 by decide)
  have e56 := rank_pair_ne rk (show (5 : Fin 8) ≠ 6 by decide)
  have e76 := rank_pair_ne rk (show (7 : Fin 8) ≠ 6 by decide)
  have e75 := rank_pair_ne rk (show (7 : Fin 8) ≠ 5 by decide)
  have e45 := rank_pair_ne rk (show (4 : Fin 8) ≠ 5 by decide)
  have e64 := rank_pair_ne rk (show (6 : Fin 8) ≠ 4 by decide)
  have e74 := rank_pair_ne rk (show (7 : Fin 8) ≠ 4 by decide)
  funext p
  simp only [make_move, undo_move]
  simp only [Function.update_apply, hcond, if_true, and_true, true_and,
    if_pos, e46, e47, e67, e65, e57, e54, e56, e76, e75, e45, e64, e74,
    if_neg, ite_true, ite_false]
  by_cases p5 : p = ((rk, 5) : Pos)
  · subst p5
    simp [e57, e54, e56, h5, hcond]
  · by_cases p7 : p = ((rk, 7) : Pos)
    · subst p7
      simp [e76, e74, e75, e54, e56, e57, e46, hcond]
    · by_cases p6 : p = ((rk, 6) : Pos)
      · subst p6
        simp [e67, e65, e46, h6, hcond]
      · by_cases p4 : p = ((rk, 4) : Pos)
        · subst p4
          simp [e45, e47, e46, hcond]
        · simp [p4, p5, p6, p7, e46, e54, e56, e57, e74, e76, hcond]

/-- Undo after make restores the board for a queenside castle: king on
file 4, destination file 2, files 2 and 3 empty. -/
theorem undo_make_castle_qs (board : Board) (rk : Fin 8) (rights : Nat)
    (hk : board (rk, 4) = WK ∨ board (rk, 4) = BK)
    (h2 : board (rk, 2) = E) (h3 : board (rk, 3) = E) :
    undo_move (make_move board ((rk, 4), (rk, 2)) rights).1 ((rk, 4), (rk, 2))
      (make_move board ((rk, 4), (rk, 2)) rights).2.1 = board := by
  have hdist : fileDist ((rk, 4), (rk, 2)) = 2 := rfl
  have hcond : (board (rk, 4) = WK ∨ board (rk, 4) = BK) ∧
      fileDist ((rk, 4), (rk, 2)) = 2 := ⟨hk, hdist⟩
  have e02 := rank_pair_ne rk (show (0 : Fin 8) ≠ 2 by decide)
  have e03 := rank_pair_ne rk (show (0 : Fin 8) ≠ 3 by decide)
  have e04 := rank_pair_ne rk (show (0 : Fin 8) ≠ 4 by decide)
  have e20 := rank_pair_ne rk (show (2 : Fin 8) ≠ 0 by decide)
  have e23 := rank_pair_ne rk (show (2 : Fin 8) ≠ 3 by decide)
  have e24 := rank_pair_ne rk (show (2 : Fin 8) ≠ 4 by decide)
  have e30 := rank_pair_ne rk (show (3 : Fin 8) ≠ 0 by decide)
  have e32 := rank_pair_ne rk (show (3 : Fin 8) ≠ 2 by decide)
  have e34 := rank_pair_ne rk (show (3 : Fin 8) ≠ 4 by decide)
  have e40 := rank_pair_ne rk (show (4 : Fin 8) ≠ 0 by decide)
  have e42 := rank_pair_ne rk (show (4 : Fin 8) ≠ 2 by decide)
  have e43 := rank_pair_ne rk (show (4 : Fin 8) ≠ 3 by decide)
  have hne62 : ¬((2 : Fin 8) = (6 : Fin 8)) := by decide
  funext p
  simp only [make_move, undo_move]
  simp only [Function.update_apply, hcond, if_true, and_true, true_and,
    hne62, if_neg, ite_true, ite_false, if_pos,
    e02, e03, e04, e20, e23, e24, e30, e32, e34, e40, e42, e43]
  by_cases p3 : p = ((rk, 3) : Pos)
  · subst p3
    simp [e30, e32, e34, h3, hcond]
  · by_cases p0 : p = ((rk, 0) : Pos)
    · subst p0
      simp [e02, e03, e04, e30, e32, e34, e20, hcond]
    · by_cases p2 : p = ((rk, 2) : Pos)
      · subst p2
        simp [e20, e23, e24, h2, hcond]
      · by_cases p4 : p = ((rk, 4) : Pos)
        · subst p4
          simp [e40, e42, e43, hcond]
        · simp [p0, p2, p3, p4, e02, e03, e04, e20, e23, e24, e30, e32,
            e34, hcond]

/-! ## Characterizing the synthesized castling moves -/

theorem mem_castleMoves_iff {board : Board} {c : Color} {rights : Nat}
    {m : Move} :
    m ∈ castleMoves board c rights ↔
      (m = ((backRank c, 4), (backRank c, 6)) ∧
        kingsideAllowed board c rights) ∨
      (m = ((backRank c, 4), (backRank c, 2)) ∧
        queensideAllowed board c rights) := by
  cases c <;>
  · simp only [castleMoves, kingsideAllowed, queensideAllowed, backRank,
      ksMask, qsMask, kingVal]
    split_ifs with h1 h2 h3 h4 <;>
      simp_all [List.mem_append, List.mem_singleton]

/-! ## Restoration for pseudo-legal and legal moves -/

theorem pseudo_restores {board : Board} {c : Color} {rights : Nat} {m : Move}
    (h : m ∈ get_all_pseudo_legal_moves board c) :
    undo_move (make_move board m rights).1 m
      (make_move board m rights).2.1 = board :=
  undo_make_normal board m rights (pseudo_from_ne_to h)
    (pseudo_not_castle_shape h)

theorem castle_restores {board : Board} {c : Color} {rights : Nat} {m : Move}
    (h : m ∈ castleMoves board c rights) :
    undo_move (make_move board m rights).1 m
      (make_move board m rights).2.1 = board := by
  rcases mem_castleMoves_iff.mp h with ⟨rfl, hc⟩ | ⟨rfl, hc⟩
  · refine undo_make_castle_ks board (backRank c) rights ?_ hc.2.2.2.1
      hc.2.2.2.2.1
    cases c
    · exact Or.inl hc.2.1
    · exact Or.inr hc.2.1
  · refine undo_make_castle_qs board (backRank c) rights ?_ hc.2.2.2.2.1
      hc.2.2.2.2.2.1
    cases c
    · exact Or.inl hc.2.1
    · exact Or.inr hc.2.1

theorem legalFilterLoop_subset {c : Color} {r : Nat} :
    ∀ (ms : List Move) (bc : Board) (m : Move),
      m ∈ (legalFilterLoop c r ms bc).1 → m ∈ ms := by
  intro ms
  induction ms with
  | nil => intro bc m h; simp [legalFilterLoop] at h
  | cons a rest ih =>
    intro bc m h
    rw [legalFilterLoop] at h
    dsimp only at h
    split at h
    · rcases List.mem_cons.mp h with rfl | h
      · exact List.mem_cons_self _ _
      · exact List.mem_cons_of_mem _ (ih _ _ h)
    · exact List.mem_cons_of_mem _ (ih _ _ h)

theorem legal_restores {board : Board} {c : Color} {rights : Nat} {m : Move}
    (h : m ∈ get_legal_moves board c rights) :
    undo_move (make_move board m rights).1 m
      (make_move board m rights).2.1 = board := by
  unfold get_legal_moves at h
  rcases List.mem_append.mp h with h | h
  · exact pseudo_restores (legalFilterLoop_subset _ _ _ h)
  · exact castle_restores h

theorem legalFilterLoop_eq {c : Color} {r : Nat} :
    ∀ (ms : List Move) (bc : Board),
      (∀ m ∈ ms,
        undo_move (make_move bc m r).1 m (make_move bc m r).2.1 = bc) →
      legalFilterLoop c r ms bc =
        (ms.filter fun m => !(is_in_check (make_move bc m r).1 c), bc) := by
  intro ms
  induction ms with
  | nil => intro bc _; simp [legalFilterLoop]
  | cons a rest ih =>
    intro bc hres
    rw [legalFilterLoop]
    rw [hres a (List.mem_cons_self _ _)]
    rw [ih bc fun m hm => hres m (List.mem_cons_of_mem _ hm)]
    by_cases hic : is_in_check (make_move bc a r).1 c
    · simp [hic]
    · simp [hic]

/-- `get_legal_moves` collapses to a pure filter over the pseudo-legal
moves (the scratch copy is fully restored between iterations) followed
by the synthesized castling moves. -/
theorem get_legal_moves_eq (board : Board) (c : Color) (rights : Nat) :
    get_legal_moves board c rights =
      ((get_all_pseudo_legal_moves board c).filter fun m =>
        !(is_in_check (make_move board m rights).1 c)) ++
      castleMoves board c rights := by
  simp only [get_legal_moves]
  rw [legalFilterLoop_eq _ _ fun m hm => pseudo_restores hm]

/-! ## Board preservation through the search -/

theorem mem_sortMoves {b : Board} {ms : List Move} {m : Move} :
    m ∈ sortMoves b ms ↔ m ∈ ms :=
  (List.mergeSort_perm ms _).mem_iff

theorem mmLoop_board {maximizing pruning : Bool} {rights : Nat}
    {rec : Board → Nat → Int → Int → Int × Board}
    (hrec : ∀ b r a bt, (rec b r a bt).2 = b) :
    ∀ (ms : List Move) (b : Board) (alpha beta best : Int),
      (∀ m ∈ ms,
        undo_move (make_move b m rights).1 m (make_move b m rights).2.1 = b) →
      (mmLoop maximizing pruning rights rec ms b alpha beta best).2 = b := by
  intro ms
  induction ms with
  | nil => intros; rfl
  | cons a rest ih =>
    intro b alpha beta best hres
    rw [mmLoop]
    have hb2 : undo_move (rec (make_move b a rights).1
        (make_move b a rights).2.2 alpha beta).2 a (make_move b a rights).2.1
        = b := by
      rw [hrec]
      exact hres a (List.mem_cons_self _ _)
    split
    · dsimp only
      rw [hb2]
      split
      · rfl
      · exact ih b _ _ _ fun m hm => hres m (List.mem_cons_of_mem _ hm)
    · dsimp only
      rw [hb2]
      split
      · rfl
      · exact ih b _ _ _ fun m hm => hres m (List.mem_cons_of_mem _ hm)

/-- `minimax` returns the board in exactly the state it received it:
every `make_move` inside the loop is undone before returning, including
on an alpha-beta cutoff. -/
theorem minimax_board :
    ∀ (depth : Nat) (b : Board) (c : Color) (alpha beta : Int)
      (rights : Nat) (p o : Bool),
      (minimax b c depth alpha beta rights p o).2 = b := by
  intro depth
  induction depth with
  | zero => intros; rfl
  | succ d ih =>
    intro b c alpha beta rights p o
    rw [minimax]
    split_ifs <;> try rfl
    all_goals
      refine mmLoop_board (fun b' r a bt => ih b' _ a bt r p o) _ b alpha beta
        _ fun m hm => legal_restores (c := c) ?_
    all_goals first
      | exact hm
      | exact mem_sortMoves.mp hm

theorem rootLoop_eq {c : Color} {depth : Nat} {rights : Nat}
    {pruning ordering : Bool} :
    ∀ (ms : List Move) (bc : Board),
      (∀ m ∈ ms,
        undo_move (make_move bc m rights).1 m (make_move bc m rights).2.1 = bc) →
      rootLoop c depth rights pruning ordering ms bc =
        (ms.map fun m =>
          ((minimax (make_move bc m rights).1 (get_opponent c) depth
            (-50000) 50000 (make_move bc m rights).2.2 pruning ordering).1, m),
          bc) := by
  intro ms
  induction ms with
  | nil => intros; rfl
  | cons a rest ih =>
    intro bc hres
    rw [rootLoop]
    rw [minimax_board]
    rw [hres a (List.mem_cons_self _ _)]
    rw [ih bc fun m hm => hres m (List.mem_cons_of_mem _ hm)]
    rfl

/-! ## Claim C2: make/undo round trip -/

/-- C2: for every board and every move that is pseudo-legal for the
moving side — including the castling moves synthesized by the legal-move
filter, which appear in `get_legal_moves` — `make_move` followed by
`undo_move` with the returned captured piece restores every cell of the
board. -/
theorem make_undo_roundtrip (board : Board) (c : Color) (rights : Nat)
    (m : Move)
    (h : m ∈ get_all_pseudo_legal_moves board c ∨
      m ∈ get_legal_moves board c rights) :
    undo_move (make_move board m rights).1 m
      (make_move board m rights).2.1 = board := by
  rcases h with h | h
  · exact pseudo_restores h
  · exact legal_restores h

/-- Witness for C2: the double pawn push e2–e4 on the starting board. -/
theorem make_undo_roundtrip_witness :
    (((6 : Fin 8), (4 : Fin 8)), ((4 : Fin 8), (4 : Fin 8))) ∈
        get_all_pseudo_legal_moves startBoard White ∧
      undo_move
        (make_move startBoard (((6, 4)), ((4, 4))) 15).1 (((6, 4)), ((4, 4)))
        (make_move startBoard (((6, 4)), ((4, 4))) 15).2.1 = startBoard :=
  ⟨by decide,
    make_undo_roundtrip startBoard White 15 (((6, 4)), ((4, 4)))
      (Or.inl (by decide))⟩

/-! ## Claim C7: the search loop restores the board -/

/-- C7: when `minimax` returns, the board equals its state at entry —
every `make_move` performed inside the move loop is matched by an
`undo_move` before the function returns, including on an early
alpha-beta `break`. -/
theorem minimax_preserves_board (board : Board) (c : Color) (depth : Nat)
    (alpha beta : Int) (rights : Nat) (use_pruning use_move_ordering : Bool) :
    (minimax board c depth alpha beta rights use_pruning
      use_move_ordering).2 = board :=
  minimax_board depth board c alpha beta rights use_pruning use_move_ordering

/-! ## Claim C1: a legal castling move can leave the king in check -/

/-- C1 (refuting evaluation): on `castleBugBoard` — white king e1, white
rook h1, black pawn h2, full rights — `get_legal_moves` returns the
kingside castle e1→g1, yet after `make_move` White is in check: the
black pawn on h2 attacks g1, but `is_square_attacked` cannot see pawn
attacks on empty squares, so the castle is not filtered out. -/
theorem castle_into_pawn_check :
    ((((7 : Fin 8), (4 : Fin 8)), ((7 : Fin 8), (6 : Fin 8))) ∈
        get_legal_moves castleBugBoard White ALL_CASTLE_RIGHTS) ∧
      is_in_check
        (make_move castleBugBoard (((7, 4)), ((7, 6))) ALL_CASTLE_RIGHTS).1
        White = true := by
  constructor
  · decide
  · decide

/-! ## Claim C5: terminal cases of `minimax` -/

/-- C5: `minimax` returns `evaluate_board` at depth `0`; at nonzero
depth with no legal moves it returns `−(10000 + depth)` for White in
check, `+(10000 + depth)` for Black in check, and `0` otherwise — all
before any recursion. -/
theorem minimax_terminal_cases (board : Board) (c : Color)
    (alpha beta : Int) (rights : Nat) (p o : Bool) :
    (minimax board c 0 alpha beta rights p o).1 = evaluate_board board ∧
    ∀ d : Nat, get_legal_moves board c rights = [] →
      (is_in_check board c = true →
        (minimax board c (d + 1) alpha beta rights p o).1 =
          if c = White then -(10000 + ((d : Int) + 1))
          else 10000 + ((d : Int) + 1)) ∧
      (is_in_check board c = false →
        (minimax board c (d + 1) alpha beta rights p o).1 = 0) := by
  refine ⟨rfl, ?_⟩
  intro d hempty
  have hsort : sortMoves board ([] : List Move) = [] := by
    simp [sortMoves]
  constructor
  · intro hchk
    cases c <;> (simp [minimax, hempty, hsort, hchk]; try ring)
  · intro hchk
    cases c <;> simp [minimax, hempty, hsort, hchk]

/-- Witness for C5: the empty board has no legal moves and no king (the
"no king counts as in check" sentinel fires), so `minimax` at depth 1
returns the White forced-mate score. -/
theorem minimax_terminal_cases_witness :
    get_legal_moves emptyBoard White 0 = [] ∧
    is_in_check emptyBoard White = true ∧
    (minimax emptyBoard White (0 + 1) (-50000) 50000 0 true true).1 =
      if White = White then -(10000 + ((0 : Int) + 1))
      else 10000 + ((0 : Int) + 1) :=
  ⟨by decide, by decide,
    ((minimax_terminal_cases emptyBoard White (-50000) 50000 0 true true).2
      0 (by decide)).1 (by decide)⟩

/-! ## Claim C6: castling rights are only ever cleared -/

/-- Bitwise helper: clearing bits preserves being a submask of `r`. -/
theorem land_pres (r x c : Nat) (h : x &&& r = x) :
    (x &&& c) &&& r = x &&& c := by
  rw [Nat.land_assoc, Nat.land_comm c r, ← Nat.land_assoc, h]

/-- Bitwise helper: `&&&` is idempotent. -/
theorem land_self_eq (n : Nat) : n &&& n = n := by
  apply Nat.eq_of_testBit_eq
  intro i
  simp [Nat.testBit_land]

set_option maxHeartbeats 1000000 in
/-- C6: the rights value returned by `make_move` is a submask of the
input rights: `new_rights &&& current_rights = new_rights`. -/
theorem make_move_rights_submask (board : Board) (m : Move) (rights : Nat) :
    (make_move board m rights).2.2 &&& rights =
      (make_move board m rights).2.2 := by
  have fWB : (WK = BK) = False := by decide
  have fWR : (WK = WR) = False := by decide
  have fWBR : (WK = BR) = False := by decide
  have fBW : (BK = WK) = False := by decide
  have fBR : (BK = WR) = False := by decide
  have fBBR : (BK = BR) = False := by decide
  have fRW : (WR = WK) = False := by decide
  have fRB : (WR = BK) = False := by decide
  have fRBR : (WR = BR) = False := by decide
  have fBRW : (BR = WK) = False := by decide
  have fBRB : (BR = BK) = False := by decide
  have fBRR : (BR = WR) = False := by decide
  by_cases h1 : board m.1 = WK
  · simp only [make_move, h1, fWB, fWR, fWBR, if_true, if_false,
      eq_self_iff_true, ite_true, ite_false]
    split_ifs <;>
      repeat' first
        | exact land_self_eq rights
        | apply land_pres
  · by_cases h2 : board m.1 = BK
    · simp only [make_move, h2, fBW, fBR, fBBR, if_true, if_false,
        eq_self_iff_true, ite_true, ite_false]
      split_ifs <;>
        repeat' first
          | exact land_self_eq rights
          | apply land_pres
    · by_cases h3 : board m.1 = WR
      · simp only [make_move, h3, fRW, fRB, fRBR, if_true, if_false,
          eq_self_iff_true, ite_true, ite_false]
        split_ifs <;>
          repeat' first
            | exact land_self_eq rights
            | apply land_pres
      · by_cases h4 : board m.1 = BR
        · simp only [make_move, h4, fBRW, fBRB, fBRR, if_true, if_false,
            eq_self_iff_true, ite_true, ite_false]
          split_ifs <;>
            repeat' first
              | exact land_self_eq rights
              | apply land_pres
        · simp only [make_move, h1, h2, h3, h4, if_true, if_false,
            eq_self_iff_true, ite_true, ite_false]
          split_ifs <;>
            repeat' first
              | exact land_self_eq rights
              | apply land_pres

/-! ## Claim C9: first-king scan and the missing-king sentinel -/

theorem find?_decomp {α : Type _} (f : α → Bool) :
    ∀ (l : List α) (x : α), l.find? f = some x →
      ∃ l1 l2, l = l1 ++ x :: l2 ∧ ∀ y ∈ l1, f y = false := by
  intro l
  induction l with
  | nil => intro x h; cases h
  | cons a rest ih =>
    intro x h
    by_cases hfa : f a
    · rw [List.find?_cons_of_pos _ hfa] at h
      cases h
      exact ⟨[], rest, rfl, by simp⟩
    · rw [List.find?_cons_of_neg _ hfa] at h
      rcases ih x h with ⟨l1, l2, hdec, hall⟩
      refine ⟨a :: l1, l2, by rw [hdec]; rfl, ?_⟩
      intro y hy
      rcases List.mem_cons.mp hy with rfl | hy
      · simpa using hfa
      · exact hall y hy

theorem scanList_pairwise :
    scanList.Pairwise
      (fun a b : Pos => 8 * a.1.val + a.2.val < 8 * b.1.val + b.2.val) := by
  decide

/-- C9: `is_in_check` locates the first square holding the color's king
in rank-major scan order and reports whether that square is attacked by
the opponent; a board with no king of that color yields `true`. -/
theorem is_in_check_spec (board : Board) (c : Color) :
    ((∀ p : Pos, board p ≠ kingVal c) → is_in_check board c = true) ∧
    (∀ p : Pos, board p = kingVal c →
      (∀ q : Pos, 8 * q.1.val + q.2.val < 8 * p.1.val + p.2.val →
        board q ≠ kingVal c) →
      is_in_check board c = is_square_attacked board p (get_opponent c)) := by
  constructor
  · intro hno
    unfold is_in_check
    cases hf : scanList.find? fun p => board p = kingVal c with
    | none => rfl
    | some q => exact absurd (by simpa using List.find?_some hf) (hno q)
  · intro p hp hfirst
    unfold is_in_check
    cases hf : scanList.find? fun q => board q = kingVal c with
    | none =>
      have := List.find?_eq_none.mp hf p (mem_scanList p)
      simp [hp] at this
    | some x =>
      rcases find?_decomp _ _ _ hf with ⟨l1, l2, hdec, hall⟩
      have hfx : board x = kingVal c := by simpa using List.find?_some hf
      have hpmem := mem_scanList p
      rw [hdec] at hpmem
      rcases List.mem_append.mp hpmem with hp1 | hp2
      · have := hall p hp1
        simp [hp] at this
      · rcases List.mem_cons.mp hp2 with rfl | hp2
        · rfl
        · have hpw := scanList_pairwise
          rw [hdec] at hpw
          have h3 := (List.pairwise_append.mp hpw).2.1
          have hlt : 8 * x.1.val + x.2.val < 8 * p.1.val + p.2.val :=
            (List.pairwise_cons.mp h3).1 p hp2
          exact absurd hfx (hfirst x hlt)

/-- Witness for C9: on the starting board the white king square e1 is
found by the scan (no earlier square holds a white king). -/
theorem is_in_check_spec_witness :
    startBoard ((7 : Fin 8), (4 : Fin 8)) = kingVal White ∧
    is_in_check startBoard White =
      is_square_attacked startBoard ((7 : Fin 8), (4 : Fin 8))
        (get_opponent White) :=
  ⟨by decide,
    (is_in_check_spec startBoard White).2 ((7 : Fin 8), (4 : Fin 8))
      (by decide) (by decide)⟩

/-! ## Claim C4: the castling clause of `get_legal_moves` -/

theorem legal_mem_iff {board : Board} {c : Color} {rights : Nat} {m : Move} :
    m ∈ get_legal_moves board c rights ↔
      (m ∈ get_all_pseudo_legal_moves board c ∧
        is_in_check (make_move board m rights).1 c = false) ∨
      m ∈ castleMoves board c rights := by
  rw [get_legal_moves_eq]
  simp [List.mem_filter, List.mem_append]

theorem castle_coord_not_pseudo {board : Board} {c : Color}
    (hk : board (backRank c, 4) = kingVal c) {dstf : Fin 8}
    (hdist : ((((backRank c, 4) : Pos).2 : Int) - (dstf : Int)).natAbs = 2) :
    ((backRank c, 4), ((backRank c, dstf) : Pos)) ∉
      get_all_pseudo_legal_moves board c := by
  intro hmem
  have h := (mem_all_pseudo.mp hmem).2.2
  have hk6 : (board ((backRank c, 4) : Pos)).natAbs = 6 := by
    rw [hk]; cases c <;> rfl
  exact pseudo_king_file_dist hk6 h hdist

/-- C4 (amended): provided the color's king occupies its canonical
origin square, a kingside (file 4 → 6) or queenside (file 4 → 2)
castling move on the back rank is returned by `get_legal_moves` iff the
claimed conditions hold: not currently in check, rights bit set, the
squares strictly between king and rook empty, and the king's transit
and destination squares unattacked (the rook's extra queenside transit
square b-file only required empty). -/
theorem castle_in_legal_iff (board : Board) (c : Color) (rights : Nat)
    (hk : board (backRank c, 4) = kingVal c) :
    (((backRank c, 4), ((backRank c, 6) : Pos)) ∈
        get_legal_moves board c rights ↔
      kingsideAllowed board c rights) ∧
    (((backRank c, 4), ((backRank c, 2) : Pos)) ∈
        get_legal_moves board c rights ↔
      queensideAllowed board c rights) := by
  constructor
  · rw [legal_mem_iff]
    constructor
    · rintro (⟨hp, _⟩ | hcm)
      · exact absurd hp (castle_coord_not_pseudo hk (by cases c <;> rfl))
      · rcases mem_castleMoves_iff.mp hcm with ⟨_, hc⟩ | ⟨heq, _⟩
        · exact hc
        · have h62 : (6 : Fin 8) = 2 := congrArg (fun mv : Move => mv.2.2) heq
          exact absurd h62 (by decide)
    · intro hc
      exact Or.inr (mem_castleMoves_iff.mpr (Or.inl ⟨rfl, hc⟩))
  · rw [legal_mem_iff]
    constructor
    · rintro (⟨hp, _⟩ | hcm)
      · exact absurd hp (castle_coord_not_pseudo hk (by cases c <;> rfl))
      · rcases mem_castleMoves_iff.mp hcm with ⟨heq, _⟩ | ⟨_, hc⟩
        · have h26 : (2 : Fin 8) = 6 := congrArg (fun mv : Move => mv.2.2) heq
          exact absurd h26 (by decide)
        · exact hc
    · intro hc
      exact Or.inr (mem_castleMoves_iff.mpr (Or.inr ⟨rfl, hc⟩))

/-- C4 counterexample: with a white queen on e1 (king elsewhere), the
move e1→g1 is returned by `get_legal_moves` as an ordinary queen slide,
while the claimed condition list (which requires the king on e1) fails —
so the claimed unconditional equivalence is false at this input. -/
theorem castle_iff_counterexample :
    ¬ ((((7 : Fin 8), (4 : Fin 8)), ((7 : Fin 8), (6 : Fin 8))) ∈
        get_legal_moves queenAliasBoard White ALL_CASTLE_RIGHTS ↔
      kingsideAllowed queenAliasBoard White ALL_CASTLE_RIGHTS) := by
  intro h
  have hmem : (((7 : Fin 8), (4 : Fin 8)), ((7 : Fin 8), (6 : Fin 8))) ∈
      get_legal_moves queenAliasBoard White ALL_CASTLE_RIGHTS := by decide
  have hks := h.mp hmem
  have hkg : queenAliasBoard (backRank White, 4) = kingVal White := hks.2.1
  exact absurd hkg (by decide)

/-- Witness for C4 (amended): on `castleBugBoard` the white king is on
e1, and the equivalences are meaningful. -/
theorem castle_in_legal_iff_witness :
    castleBugBoard (backRank White, 4) = kingVal White ∧
    ((((backRank White, 4), ((backRank White, 6) : Pos)) ∈
        get_legal_moves castleBugBoard White 15 ↔
      kingsideAllowed castleBugBoard White 15) ∧
    (((backRank White, 4), ((backRank White, 2) : Pos)) ∈
        get_legal_moves castleBugBoard White 15 ↔
      queensideAllowed castleBugBoard White 15)) :=
  ⟨by decide, castle_in_legal_iff castleBugBoard White 15 (by decide)⟩

/-! ## Characterizing `get_best_move` (shared by C8 and C10) -/

theorem mem_if_sort {board : Board} {lm0 : List Move} {o : Bool} {m : Move}
    (hm : m ∈ (if o then sortMoves board lm0 else lm0)) : m ∈ lm0 := by
  split at hm
  · exact mem_sortMoves.mp hm
  · exact hm

theorem foldl_max_mem : ∀ (xs : List Int) (x : Int),
    xs.foldl max x = x ∨ xs.foldl max x ∈ xs := by
  intro xs
  induction xs with
  | nil => intro x; exact Or.inl rfl
  | cons y ys ih =>
    intro x
    rcases ih (max x y) with h | h
    · rcases max_choice x y with h' | h'
      · exact Or.inl (by rw [List.foldl_cons, h, h'])
      · exact Or.inr (by rw [List.foldl_cons, h, h']; exact List.mem_cons_self _ _)
    · exact Or.inr (List.mem_cons_of_mem _ h)

theorem foldl_min_mem : ∀ (xs : List Int) (x : Int),
    xs.foldl min x = x ∨ xs.foldl min x ∈ xs := by
  intro xs
  induction xs with
  | nil => intro x; exact Or.inl rfl
  | cons y ys ih =>
    intro x
    rcases ih (min x y) with h | h
    · rcases min_choice x y with h' | h'
      · exact Or.inl (by rw [List.foldl_cons, h, h'])
      · exact Or.inr (by rw [List.foldl_cons, h, h']; exact List.mem_cons_self _ _)
    · exact Or.inr (List.mem_cons_of_mem _ h)

theorem listMax_mem {l : List Int} (h : l ≠ []) : listMax l ∈ l := by
  cases l with
  | nil => exact absurd rfl h
  | cons x xs =>
    rcases foldl_max_mem xs x with h' | h'
    · rw [listMax, h']; exact List.mem_cons_self _ _
    · exact List.mem_cons_of_mem _ h'

theorem listMin_mem {l : List Int} (h : l ≠ []) : listMin l ∈ l := by
  cases l with
  | nil => exact absurd rfl h
  | cons x xs =>
    rcases foldl_min_mem xs x with h' | h'
    · rw [listMin, h']; exact List.mem_cons_self _ _
    · exact List.mem_cons_of_mem _ h'

/-- `get_best_move` written through `rootPoints` / `bestTieMoves`. -/
theorem get_best_move_via_points (board : Board) (c : Color) (depth : Nat)
    (rights : Nat) (p o : Bool) (seed : Nat) :
    get_best_move board c depth rights p o seed =
      if (if o then sortMoves board (get_legal_moves board c rights)
          else get_legal_moves board c rights).isEmpty then none
      else if (rootPoints board c depth rights p o).isEmpty then none
      else (bestTieMoves board c depth rights p o).get?
        (seed % (bestTieMoves board c depth rights p o).length) := rfl

/-- The root points are exactly one `(score, move)` pair per (sorted)
legal move, in order. -/
theorem rootPoints_eq (board : Board) (c : Color) (depth : Nat)
    (rights : Nat) (p o : Bool) :
    rootPoints board c depth rights p o =
      (if o then sortMoves board (get_legal_moves board c rights)
        else get_legal_moves board c rights).map fun m =>
        ((minimax (make_move board m rights).1 (get_opponent c) (depth - 1)
          (-50000) 50000 (make_move board m rights).2.2 p o).1, m) := by
  unfold rootPoints
  dsimp only
  rw [rootLoop_eq _ board fun m hm => legal_restores (c := c) (mem_if_sort hm)]

theorem bestTieMoves_ne_nil {board : Board} {c : Color} {depth : Nat}
    {rights : Nat} {p o : Bool}
    (h : get_legal_moves board c rights ≠ []) :
    bestTieMoves board c depth rights p o ≠ [] := by
  have hlm : (if o then sortMoves board (get_legal_moves board c rights)
      else get_legal_moves board c rights) ≠ [] := by
    split
    · intro hempty
      apply h
      have := congrArg List.length hempty
      rw [sortMoves, List.length_mergeSort] at this
      exact List.length_eq_zero.mp this
    · exact h
  have hpts : rootPoints board c depth rights p o ≠ [] := by
    rw [rootPoints_eq]
    simpa using hlm
  have hmem : bestRootScore board c depth rights p o ∈
      (rootPoints board c depth rights p o).map Prod.fst := by
    unfold bestRootScore
    split
    · exact listMax_mem (by simpa using hpts)
    · exact listMin_mem (by simpa using hpts)
  rcases List.mem_map.mp hmem with ⟨pm, hpm, hfst⟩
  unfold bestTieMoves
  intro hnil
  have hmemf : pm ∈ (rootPoints board c depth rights p o).filter
      fun pm => pm.1 = bestRootScore board c depth rights p o := by
    rw [List.mem_filter]
    exact ⟨hpm, by simp [hfst]⟩
  rw [List.map_eq_nil_iff.mp hnil] at hmemf
  cases hmemf

theorem bestTieMoves_subset {board : Board} {c : Color} {depth : Nat}
    {rights : Nat} {p o : Bool} {mv : Move}
    (h : mv ∈ bestTieMoves board c depth rights p o) :
    mv ∈ get_legal_moves board c rights := by
  unfold bestTieMoves at h
  rcases List.mem_map.mp h with ⟨pm, hpm, rfl⟩
  have := List.mem_filter.mp hpm
  rw [rootPoints_eq] at this
  rcases List.mem_map.mp this.1 with ⟨m, hm, rfl⟩
  exact mem_if_sort hm

theorem if_sort_ne_nil {board : Board} {lm0 : List Move} {o : Bool}
    (h : lm0 ≠ []) : (if o then sortMoves board lm0 else lm0) ≠ [] := by
  split
  · intro hempty
    apply h
    have := congrArg List.length hempty
    rw [sortMoves, List.length_mergeSort] at this
    exact List.length_eq_zero.mp this
  · exact h

/-- All seed-dependence of `get_best_move` is the final indexing into
the deterministic tie list. -/
theorem get_best_move_eq_tie (board : Board) (c : Color) (depth : Nat)
    (rights : Nat) (p o : Bool) (seed : Nat) :
    get_best_move board c depth rights p o seed =
      (bestTieMoves board c depth rights p o).get?
        (seed % (bestTieMoves board c depth rights p o).length) := by
  by_cases hlm : get_legal_moves board c rights = []
  · rw [get_best_move_via_points]
    have hsorted : (if o then sortMoves board (get_legal_moves board c rights)
        else get_legal_moves board c rights) = [] := by
      rw [hlm]
      split
      · simp [sortMoves]
      · rfl
    have htie : bestTieMoves board c depth rights p o = [] := by
      unfold bestTieMoves
      rw [rootPoints_eq, hsorted]
      simp
    rw [hsorted, htie]
    simp
  · have hsorted := @if_sort_ne_nil board (get_legal_moves board c rights) o hlm
    have hpts : rootPoints board c depth rights p o ≠ [] := by
      rw [rootPoints_eq]
      simpa using hsorted
    rw [get_best_move_via_points]
    rw [if_neg (by simpa [List.isEmpty_iff] using hsorted),
      if_neg (by simpa [List.isEmpty_iff] using hpts)]

/-- C8: `get_best_move` returns `None` iff `get_legal_moves` is empty
for the same inputs, and any returned move is a member of
`get_legal_moves`' output. -/
theorem get_best_move_none_iff (board : Board) (c : Color) (depth : Nat)
    (rights : Nat) (p o : Bool) (seed : Nat) :
    (get_best_move board c depth rights p o seed = none ↔
      get_legal_moves board c rights = []) ∧
    ∀ mv, get_best_move board c depth rights p o seed = some mv →
      mv ∈ get_legal_moves board c rights := by
  by_cases hlm : get_legal_moves board c rights = []
  · have hnone : get_best_move board c depth rights p o seed = none := by
      rw [get_best_move_eq_tie]
      have htie : bestTieMoves board c depth rights p o = [] := by
        unfold bestTieMoves
        rw [rootPoints_eq]
        rw [show (if o then sortMoves board (get_legal_moves board c rights)
            else get_legal_moves board c rights) = [] from by
          rw [hlm]
          split
          · simp [sortMoves]
          · rfl]
        simp
      rw [htie]
      rfl
    refine ⟨⟨fun _ => hlm, fun _ => hnone⟩, ?_⟩
    intro mv hmv
    rw [hnone] at hmv
    cases hmv
  · have htie := @bestTieMoves_ne_nil board c depth rights p o hlm
    have hlen : 0 < (bestTieMoves board c depth rights p o).length :=
      List.length_pos.mpr htie
    have hmod : seed % (bestTieMoves board c depth rights p o).length <
        (bestTieMoves board c depth rights p o).length :=
      Nat.mod_lt _ hlen
    have hsome : get_best_move board c depth rights p o seed =
        some ((bestTieMoves board c depth rights p o).get
          ⟨seed % (bestTieMoves board c depth rights p o).length, hmod⟩) := by
      rw [get_best_move_eq_tie]
      exact List.get?_eq_get hmod
    constructor
    · constructor
      · intro hnone
        rw [hsome] at hnone
        cases hnone
      · intro h
        exact absurd h hlm
    · intro mv hmv
      rw [hsome] at hmv
      cases hmv
      exact bestTieMoves_subset (List.get_mem _ _ hmod)

/-- Witness for C8: on the two-kings board at depth 1, a move is
returned and it is legal. -/
theorem get_best_move_none_iff_witness :
    (get_best_move kingsOnlyBoard White 1 0 true true 0 = none ↔
      get_legal_moves kingsOnlyBoard White 0 = []) ∧
    (get_best_move kingsOnlyBoard White 1 0 true true 0 =
        some (((7 : Fin 8), (0 : Fin 8)), ((6 : Fin 8), (0 : Fin 8))) →
      (((7 : Fin 8), (0 : Fin 8)), ((6 : Fin 8), (0 : Fin 8))) ∈
        get_legal_moves kingsOnlyBoard White 0) :=
  ⟨(get_best_move_none_iff kingsOnlyBoard White 1 0 true true 0).1,
    (get_best_move_none_iff kingsOnlyBoard White 1 0 true true 0).2 _⟩

/-! ## Claim C10: determinism -/

/-- C10: `minimax` and `get_legal_moves` are deterministic functions of
their arguments (the embedding threads no random state), and the only
seed-dependence in the engine is `get_best_move`'s final uniform choice:
for every seed the result is the seed-indexed element of the
deterministic tie list `bestTieMoves`, so the presence of a result is
seed-independent and the returned move always lies in the tie set. -/
theorem engine_deterministic (board : Board) (c : Color) (depth : Nat)
    (rights : Nat) (p o : Bool) :
    (∀ alpha beta : Int,
      minimax board c depth alpha beta rights p o =
        minimax board c depth alpha beta rights p o) ∧
    (get_legal_moves board c rights = get_legal_moves board c rights) ∧
    (∀ seed : Nat,
      get_best_move board c depth rights p o seed =
        (bestTieMoves board c depth rights p o).get?
          (seed % (bestTieMoves board c depth rights p o).length)) ∧
    (∀ seed1 seed2 : Nat,
      (get_best_move board c depth rights p o seed1).isSome =
        (get_best_move board c depth rights p o seed2).isSome) := by
  refine ⟨fun _ _ => rfl, rfl, fun seed => get_best_move_eq_tie _ _ _ _ _ _ _,
    ?_⟩
  intro seed1 seed2
  rw [get_best_move_eq_tie, get_best_move_eq_tie]
  by_cases htie : bestTieMoves board c depth rights p o = []
  · rw [htie]
    rfl
  · have hlen : 0 < (bestTieMoves board c depth rights p o).length :=
      List.length_pos.mpr htie
    rw [List.get?_eq_get (Nat.mod_lt _ hlen),
      List.get?_eq_get (Nat.mod_lt _ hlen)]
    rfl

/-! ## Claim C3, part 1: the unpruned search ignores its window -/

end Chess
